import Mathlib

/-!
Verification of the ingestion chunking/identity pipeline and the hybrid
retrieval fusion-and-rerank engine of the sapsan_test repository.

Shallow embedding conventions:
* Python strings are modelled as Lean `String` (lists of `Char`); the
  whitespace class is the ASCII whitespace class used by Python's
  `str.split` / `str.strip` on ASCII text.
* `langchain` `Document` objects are modelled by the `Doc` structure whose
  fields are the metadata keys this repository actually reads and writes.
* External opaque computations (SHA-256, UUID5, the cross-encoder scoring
  model, the recursive text splitter) are universally quantified function
  parameters: every theorem below holds for all of them, which is exactly
  the purity statement the source relies on.
* Python `dict` (insertion ordered, value overwritten in place) is modelled
  by an association list with the `dictUpsert` operation.
-/

namespace Sapsan

/-! ### Text normalization (src/core/ingestion/ingestion.py, `_normalize_text`) -/

/-- The ASCII whitespace class of Python `str.split()` / `str.strip()`. -/
def pyIsSpace (c : Char) : Bool :=
  c = ' ' || c = '\t' || c = '\n' || c = '\r' || c = '\x0b' || c = '\x0c'

/-- The soft hyphen character removed by `_normalize_text` (`"\xad"`). -/
def softHyphen : Char := '\u00ad'

/-- Split a character list at every whitespace character, keeping empty
segments (the segments between consecutive separators). -/
def splitWS : List Char → List (List Char)
  | [] => [[]]
  | c :: cs =>
    match splitWS cs, pyIsSpace c with
    | r, true => [] :: r
    | [], false => [[c]]
    | w :: ws, false => (c :: w) :: ws

/-- Python `text.split()`: the nonempty maximal runs of non-whitespace. -/
def pyWords (l : List Char) : List (List Char) :=
  (splitWS l).filter (fun w => !w.isEmpty)

/-- Python `" ".join(ws)`. -/
def joinWords : List (List Char) → List Char
  | [] => []
  | [w] => w
  | w :: ws => w ++ ' ' :: joinWords ws

/-- `IngestionService._normalize_text` on character lists:
`" ".join(text.replace("\xad", "").split())`. -/
def normalizeChars (l : List Char) : List Char :=
  joinWords (pyWords (l.filter (fun c => c ≠ softHyphen)))

/-- `IngestionService._normalize_text` on strings. -/
def normalizeString (s : String) : String :=
  ⟨normalizeChars s.data⟩

/-! ### Documents -/

/-- A `langchain` `Document` restricted to the fields this repository reads
and writes (`page_content` plus the metadata keys of `_prepare_chunks` and
the retriever).  Optional fields model absent metadata keys. -/
structure Doc where
  page_content : String := ""
  chunk_type : String := "paragraph"
  section_ : Option String := none
  subsection : Option String := none
  is_atomic : Bool := false
  source : Option String := none
  file_hash : Option String := none
  chunk_hash : Option String := none
  chunk_index : Option Nat := none
  chunk_uuid : Option String := none
  deriving DecidableEq, Repr

/-! ### Chunk preparation (src/core/ingestion/ingestion.py, `_prepare_chunks`) -/

/-- One step of the `for idx, chunk in enumerate(chunks)` loop of
`_prepare_chunks`: normalize the text, then attach identity metadata.
`sha` models `hashlib.sha256(...).hexdigest()` and `u5` models
`str(uuid.uuid5(uuid.NAMESPACE_DNS, ...))`. -/
def prepareChunk (sha u5 : String → String) (filename fileHash : String)
    (idx : Nat) (c : Doc) : Doc :=
  let nt := normalizeString c.page_content
  { c with
    page_content := nt
    source := some filename
    file_hash := some fileHash
    chunk_hash := some (sha nt)
    chunk_index := some idx
    chunk_uuid := some (u5 nt) }

/-- The loop of `_prepare_chunks`, carrying the running `enumerate` index;
returns the prepared documents and the id list. -/
def prepareChunksAux (sha u5 : String → String) (filename fileHash : String) :
    Nat → List Doc → List Doc × List String
  | _, [] => ([], [])
  | idx, c :: cs =>
    let d := prepareChunk sha u5 filename fileHash idx c
    let r := prepareChunksAux sha u5 filename fileHash (idx + 1) cs
    (d :: r.1, d.chunk_uuid.getD "" :: r.2)

/-- `IngestionService._prepare_chunks`. -/
def prepareChunks (sha u5 : String → String) (filename fileHash : String)
    (chunks : List Doc) : List Doc × List String :=
  prepareChunksAux sha u5 filename fileHash 0 chunks

/-! ### Ingestion partition (src/core/ingestion/ingestion.py, `ingest_file`) -/

/-- The chunking stage of `ingest_file`: blocks whose metadata marks them
atomic bypass the splitter, all other blocks are passed to
`splitter.split_documents`, and the table blocks are appended after the
split chunks (`chunks.extend(table_docs)`).  `split` models the
`RecursiveCharacterTextSplitter`. -/
def ingestChunks (split : List Doc → List Doc) (docs : List Doc) : List Doc :=
  let tableDocs := docs.filter (fun d => d.is_atomic)
  let textDocs := docs.filter (fun d => !d.is_atomic)
  split textDocs ++ tableDocs

/-! ### Fusion (src/core/retriever.py, `HybridRetriever.aretrieve`) -/

/-- The dedup key of the fusion loop:
`doc.metadata.get("chunk_hash") or doc.page_content` — Python `or` falls
back when the hash is absent (`None`) or empty (falsy string). -/
def fuseKey (d : Doc) : String :=
  match d.chunk_hash with
  | some h => if h = "" then d.page_content else h
  | none => d.page_content

/-- Python `docs_map[key] = doc` on an insertion-ordered dict: overwrite in
place when the key is present, append otherwise. -/
def dictUpsert (m : List (String × Doc)) (k : String) (v : Doc) :
    List (String × Doc) :=
  if m.any (fun p => p.1 = k) then
    m.map (fun p => if p.1 = k then (k, v) else p)
  else
    m ++ [(k, v)]

/-- The fusion loop folded over a list of documents, starting from `m`. -/
def fuseFold (m : List (String × Doc)) (ds : List Doc) : List (String × Doc) :=
  ds.foldl (fun m d => dictUpsert m (fuseKey d) d) m

/-- The fused candidate list of `HybridRetriever.aretrieve` before the
`pre_rerank_k` truncation: iterate `vec_docs + bm25_docs` into the dict,
then take `list(docs_map.values())`. -/
def fuse (vecDocs lexDocs : List Doc) : List Doc :=
  (fuseFold [] (vecDocs ++ lexDocs)).map Prod.snd

/-! ### Reranker (src/core/reranker.py) -/

/-- The load state of `Reranker`: whether `self.model` and `self.tokenizer`
are non-`None`. -/
structure RerankerState where
  model : Bool
  tokenizer : Bool
  deriving DecidableEq, Repr

/-- The state set by `Reranker.__init__` before `load()` is called:
`self.model = None`, `self.tokenizer = None`. -/
def initState : RerankerState := ⟨false, false⟩

/-- `Reranker.load`.  `modelOk` / `tokenizerOk` model whether the two
`from_pretrained` calls succeed.  The `try` block assigns `self.model`
first, then `self.tokenizer`; any failure is caught and logged.  The
statement `self.model.to(self.device)` stands OUTSIDE the `try` block and
raises `AttributeError` when `self.model` is still `None`. -/
def load (modelOk tokenizerOk : Bool) (st : RerankerState) :
    Except String RerankerState :=
  let st1 :=
    if modelOk then
      if tokenizerOk then { model := true, tokenizer := true }
      else { st with model := true }
    else st
  if st1.model then Except.ok st1
  else Except.error "AttributeError: NoneType object has no attribute to"

/-- The descending-score order used to model
`scored_docs.sort(key=lambda x: x[1], reverse=True)`. -/
def scoreGE (x y : Doc × Int) : Prop := y.2 ≤ x.2

instance : DecidableRel scoreGE := fun x y =>
  inferInstanceAs (Decidable (y.2 ≤ x.2))

instance : IsTotal (Doc × Int) scoreGE := ⟨fun x y => Int.le_total y.2 x.2⟩

instance : IsTrans (Doc × Int) scoreGE :=
  ⟨fun _ _ _ h1 h2 => le_trans h2 h1⟩

/-- `Reranker._rerank_sync`.  `score` models the cross-encoder: one scalar
logit per `(query, doc.page_content)` pair.  Python's `list.sort` is a
stable sort; with `reverse=True` equal keys keep their input order, which
is exactly `insertionSort` with the non-strict relation `scoreGE`. -/
def rerankSync (st : RerankerState) (score : String → String → Int)
    (query : String) (documents : List Doc) : List Doc :=
  if !st.model || !st.tokenizer then documents
  else if documents.isEmpty then []
  else
    let scored := documents.map (fun d => (d, score query d.page_content))
    (scored.insertionSort scoreGE).map Prod.fst

/-! ### Hybrid retrieval (src/core/retriever.py, `HybridRetriever.aretrieve`) -/

/-- `HybridRetriever.aretrieve` after the two searches have returned
`vecDocs` and `lexDocs`: fuse, truncate to `pre_rerank_k`, rerank, truncate
to `top_k`. -/
def aretrieve (st : RerankerState) (score : String → String → Int)
    (preRerankK topK : Nat) (query : String)
    (vecDocs lexDocs : List Doc) : List Doc :=
  let mergedDocs := fuse vecDocs lexDocs
  let candidates := mergedDocs.take preRerankK
  let rankedDocs := rerankSync st score query candidates
  rankedDocs.take topK

/-! ### DOCX parser (src/core/ingestion/docx_parser.py) -/

/-- Python `line.strip()` (ASCII whitespace). -/
def stripChars (l : List Char) : List Char :=
  ((l.dropWhile pyIsSpace).reverse.dropWhile pyIsSpace).reverse

/-- Python `line.strip()` on strings. -/
def pyStrip (s : String) : String := ⟨stripChars s.data⟩

/-- Membership test `"|" in line`. -/
def hasPipe (s : String) : Bool := s.data.contains '|'

/-- The character class `[\s\-:|]` of the markdown separator-row pattern. -/
def sepClass (c : Char) : Bool :=
  pyIsSpace c || c = '-' || c = ':' || c = '|'

/-- Full match of `^\|[\s\-:|]+\|$`: a `|`, one or more class characters,
then a final `|`. -/
def isSepRow (s : String) : Bool :=
  match s.data with
  | '|' :: rest =>
    decide (2 ≤ rest.length) && rest.dropLast.all sepClass &&
      rest.getLast? == some '|'
  | _ => false

/-- `DocxParser._is_table_start`. -/
def isTableStart (lines : List String) (idx : Nat) : Bool :=
  if lines.length ≤ idx || lines.length ≤ idx + 1 then false
  else
    let line1 := pyStrip (lines.getD idx "")
    let line2 := pyStrip (lines.getD (idx + 1) "")
    if !hasPipe line1 || !hasPipe line2 then false
    else isSepRow line2

/-- The character class `[А-ЯЁ]` (uppercase Cyrillic). -/
def isUpperCyr (c : Char) : Bool :=
  ('А' ≤ c && c ≤ 'Я') || c = 'Ё'

/-- Full match of `^(\d+)\.\s+([А-ЯЁ][А-ЯЁ\s]+)$`. -/
def numberedHeading (l : List Char) : Bool :=
  let ds := l.takeWhile Char.isDigit
  let r1 := l.dropWhile Char.isDigit
  !ds.isEmpty &&
    match r1 with
    | '.' :: r2 =>
      let sp := r2.takeWhile pyIsSpace
      let r3 := r2.dropWhile pyIsSpace
      !sp.isEmpty &&
        match r3 with
        | c :: rest =>
          isUpperCyr c && !rest.isEmpty &&
            rest.all (fun x => isUpperCyr x || pyIsSpace x)
        | [] => false
    | _ => false

/-- Simple Cyrillic/ASCII lowercasing for `re.IGNORECASE`. -/
def cyrLower (c : Char) : Char :=
  if 'А' ≤ c && c ≤ 'Я' then Char.ofNat (c.toNat + 0x20)
  else if c = 'Ё' then 'ё'
  else c.toLower

/-- Case-insensitive literal prefix match; returns the remainder. -/
def matchPrefixCI : List Char → List Char → Option (List Char)
  | [], rest => some rest
  | _ :: _, [] => none
  | p :: ps, c :: cs =>
    if cyrLower c = cyrLower p then matchPrefixCI ps cs else none

/-- Prefix match of `^(Приложение\s*№\s*\d+)` with `re.IGNORECASE`. -/
def appendixHeading (l : List Char) : Bool :=
  match matchPrefixCI "Приложение".data l with
  | none => false
  | some r1 =>
    match r1.dropWhile pyIsSpace with
    | '№' :: r3 => !((r3.dropWhile pyIsSpace).takeWhile Char.isDigit).isEmpty
    | _ => false

/-- Prefix match of `^#{1,2}\s+(.+)$` on a newline-free line: after the
hash marks, a whitespace character followed by at least one more
character (regex backtracking lets `.+` absorb trailing whitespace). -/
def mdTail (r : List Char) : Bool :=
  match r with
  | c :: rest => pyIsSpace c && !rest.isEmpty
  | [] => false

/-- The markdown-heading alternative of `_is_main_section`. -/
def mdHeading (l : List Char) : Bool :=
  match l with
  | '#' :: '#' :: r => mdTail r
  | '#' :: r => mdTail r
  | _ => false

/-- `DocxParser._is_main_section`. -/
def isMainSection (s : String) : Bool :=
  if s = "" then false
  else numberedHeading s.data || appendixHeading s.data || mdHeading s.data

/-- A parser-produced `Document`: `_create_document` always sets
`chunk_type`, `section`, `subsection=None`, and `is_atomic` only for
atomic chunks. -/
structure PDoc where
  text : String
  chunk_type : String
  section_ : Option String
  is_atomic : Bool
  deriving DecidableEq, Repr

/-- `DocxParser._create_document`. -/
def createDocument (sec : Option String) (text chunkType : String)
    (isAtomic : Bool) : PDoc :=
  { text := text, chunk_type := chunkType, section_ := sec,
    is_atomic := isAtomic }

/-- The `while idx < len(lines)` loop of `DocxParser._extract_table`:
consume the contiguous run of stripped lines containing `|`. -/
def extractTableAux (lines : List String) (idx : Nat) (acc : List String) :
    List String × Nat :=
  if idx < lines.length then
    let line := pyStrip (lines.getD idx "")
    if hasPipe line then extractTableAux lines (idx + 1) (acc ++ [line])
    else (acc, idx)
  else (acc, idx)
termination_by lines.length - idx

/-- `DocxParser._extract_table`: the table text (joined with newlines) and
the index of the line following the table. -/
def extractTable (lines : List String) (startIdx : Nat) : String × Nat :=
  let r := extractTableAux lines (startIdx + 1) [pyStrip (lines.getD startIdx "")]
  (String.intercalate "\n" r.1, r.2)

/-- The loop of `_extract_table` never moves the index backwards. -/
theorem extractTableAux_le (lines : List String) :
    ∀ n idx acc, lines.length - idx ≤ n →
      idx ≤ (extractTableAux lines idx acc).2 := by
  intro n
  induction n with
  | zero =>
    intro idx acc h
    rw [extractTableAux]
    have hidx : ¬ idx < lines.length := by omega
    simp [hidx]
  | succ n ih =>
    intro idx acc h
    rw [extractTableAux]
    by_cases hidx : idx < lines.length
    · simp only [hidx, if_true]
      split
      · have := ih (idx + 1) (acc ++ [pyStrip (lines.getD idx "")]) (by omega)
        simp only [List.getD] at this ⊢
        omega
      · simp
    · simp [hidx]

/-- `_extract_table` always returns an index strictly greater than the
index it was given. -/
theorem extractTable_lt (lines : List String) (startIdx : Nat) :
    startIdx < (extractTable lines startIdx).2 := by
  have := extractTableAux_le lines (lines.length - (startIdx + 1)) (startIdx + 1)
    [pyStrip (lines.getD startIdx "")] le_rfl
  simp only [extractTable]
  omega

/-- The `while idx < len(lines)` loop of `DocxParser.parse`, carrying the
loop state: current index, `self.current_section`, the `current_content`
buffer and the accumulated documents.  Each non-table branch advances the
index by one; the table branch jumps to the index `_extract_table`
returned, which is strictly larger. -/
def parseLoop (lines : List String) (idx : Nat) (sec : Option String)
    (buf : List String) (docs : List PDoc) : List PDoc :=
  if h : idx < lines.length then
    let line := pyStrip (lines.getD idx "")
    if line = "" then
      parseLoop lines (idx + 1) sec buf docs
    else if isTableStart lines idx then
      let docs1 :=
        if buf.isEmpty then docs
        else docs ++ [createDocument sec (String.intercalate "\n" buf) "paragraph" false]
      let t := extractTable lines idx
      parseLoop lines t.2 sec []
        (docs1 ++ [createDocument sec t.1 "table" true])
    else
      let secHit := isMainSection line
      let docs1 :=
        if secHit && !buf.isEmpty then
          docs ++ [createDocument sec (String.intercalate "\n" buf) "paragraph" false]
        else docs
      let sec1 := if secHit then some line else sec
      let buf1 := (if secHit then ([] : List String) else buf) ++ [line]
      parseLoop lines (idx + 1) sec1 buf1 docs1
  else
    if buf.isEmpty then docs
    else docs ++ [createDocument sec (String.intercalate "\n" buf) "paragraph" false]
termination_by lines.length - idx
decreasing_by
  · omega
  · have := extractTable_lt lines idx
    omega
  · omega

/-- The line-scanning phase of `DocxParser.parse`, started on the lines of
the preprocessed document text with fresh state
(`self.current_section = None`, empty buffer). -/
def parseLines (lines : List String) : List PDoc :=
  parseLoop lines 0 none [] []

/-! ### Auxiliary notions for the fusion proofs -/

/-- The keys of the fusion dict, in insertion order. -/
def keysOf (m : List (String × Doc)) : List String := m.map Prod.fst

/-- First entry with key `k` (dict lookup once keys are unique). -/
def findKey (k : String) (m : List (String × Doc)) : Option Doc :=
  (m.find? (fun p => decide (p.1 = k))).map Prod.snd

/-- The last document of `ds` whose fusion key is `k` (the record a dict
ends up holding after inserting all of `ds` under their keys). -/
def findLastKey (k : String) : List Doc → Option Doc
  | [] => none
  | d :: ds =>
    match findLastKey k ds with
    | some e => some e
    | none => if fuseKey d = k then some d else none

/-- Concrete documents used by the witnesses. -/
def wA : Doc := { page_content := "A", chunk_hash := some "ha" }

def wB : Doc := { page_content := "B", chunk_hash := some "hb" }

def wB2 : Doc := { page_content := "B lex", chunk_hash := some "hb" }

def wC : Doc := { page_content := "C", chunk_hash := some "hc" }

def wD : Doc := { page_content := "D", chunk_hash := some "hd" }

/-- Concrete scoring function used by the witnesses. -/
def wScore : String → String → Int :=
  fun _ t => if t = "A" then 1 else 2

/-- Two vector-side documents sharing one identity key. -/
def wX : Doc := { page_content := "X", chunk_hash := some "hx" }

def wX2 : Doc := { page_content := "X dup", chunk_hash := some "hx" }

/-- A lexical-side document sharing its key with `wA`. -/
def wA2 : Doc := { page_content := "A lex", chunk_hash := some "ha" }

/-! ### Lemmas about chunk preparation -/

theorem prepareChunksAux_spec (sha u5 : String → String) (fn fh : String) :
    ∀ (idx : Nat) (chunks : List Doc),
      (prepareChunksAux sha u5 fn fh idx chunks).2
        = chunks.map (fun c => u5 (normalizeString c.page_content))
      ∧ (prepareChunksAux sha u5 fn fh idx chunks).1.map (fun d => d.chunk_hash)
        = chunks.map (fun c => some (sha (normalizeString c.page_content)))
      ∧ (prepareChunksAux sha u5 fn fh idx chunks).1.map (fun d => d.is_atomic)
        = chunks.map (fun c => c.is_atomic) := by
  intro idx chunks
  induction chunks generalizing idx with
  | nil => simp [prepareChunksAux]
  | cons c cs ih =>
    have h := ih (idx + 1)
    simp [prepareChunksAux, prepareChunk, h.1, h.2.1, h.2.2]

theorem countP_eq_of_map_eq {α β : Type} (f : α → Bool) (g : β → Bool)
    (l1 : List α) (l2 : List β) (h : l1.map f = l2.map g) :
    (l1.filter f).length = (l2.filter g).length := by
  rw [← List.countP_eq_length_filter, ← List.countP_eq_length_filter]
  have h1 : l1.countP f = (l1.map f).countP (fun b => b) := by
    rw [List.countP_map]
    rfl
  have h2 : l2.countP g = (l2.map g).countP (fun b => b) := by
    rw [List.countP_map]
    rfl
  rw [h1, h2, h]

/-! ### Lemmas about text normalization -/

theorem splitWS_ne_nil : ∀ l : List Char, splitWS l ≠ []
  | [] => by simp [splitWS]
  | c :: cs => by
    cases h : pyIsSpace c <;> cases hr : splitWS cs <;> simp [splitWS, h, hr]

theorem mem_splitWS : ∀ l : List Char, ∀ w ∈ splitWS l, ∀ c ∈ w,
    c ∈ l ∧ pyIsSpace c = false := by
  intro l
  induction l with
  | nil =>
    intro w hw c hc
    simp [splitWS] at hw
    subst hw
    simp at hc
  | cons a as ih =>
    intro w hw c hc
    cases h : pyIsSpace a <;> cases hr : splitWS as <;>
      simp only [splitWS, h, hr, List.mem_cons, List.not_mem_nil, or_false] at hw
    · exact absurd hr (splitWS_ne_nil as)
    · rcases hw with hw | hw
      · subst hw
        rcases List.mem_cons.mp hc with hc | hc
        · subst hc
          exact ⟨List.mem_cons_self _ _, h⟩
        · have := ih _ (by rw [hr]; exact List.mem_cons_self _ _) c hc
          exact ⟨List.mem_cons_of_mem _ this.1, this.2⟩
      · have := ih w (by rw [hr]; exact List.mem_cons_of_mem _ hw) c hc
        exact ⟨List.mem_cons_of_mem _ this.1, this.2⟩
    · subst hw
      simp at hc
    · rcases hw with hw | hw
      · subst hw
        simp at hc
      · have := ih w (by rw [hr]; exact List.mem_cons.mpr hw) c hc
        exact ⟨List.mem_cons_of_mem _ this.1, this.2⟩

theorem splitWS_all_nonspace :
    ∀ l : List Char, (∀ c ∈ l, pyIsSpace c = false) → splitWS l = [l]
  | [] => by simp [splitWS]
  | c :: cs => fun h => by
    have hc : pyIsSpace c = false := h c (by simp)
    have ih := splitWS_all_nonspace cs (fun x hx => h x (by simp [hx]))
    simp [splitWS, hc, ih]

theorem splitWS_space {a : Char} (h : pyIsSpace a = true) (l : List Char) :
    splitWS (a :: l) = [] :: splitWS l := by
  cases hr : splitWS l <;> simp [splitWS, h, hr]

theorem splitWS_append : ∀ w : List Char,
    (∀ c ∈ w, pyIsSpace c = false) →
    ∀ l h t, splitWS l = h :: t → splitWS (w ++ l) = (w ++ h) :: t
  | [], _, l, h, t, hl => by simpa using hl
  | a :: as, hw, l, h, t, hl => by
    have ha : pyIsSpace a = false := hw a (by simp)
    have hrec := splitWS_append as (fun c hc => hw c (by simp [hc])) l h t hl
    simp [splitWS, hrec, ha]

theorem pyWords_joinWords : ∀ ws : List (List Char),
    (∀ w ∈ ws, w ≠ [] ∧ ∀ c ∈ w, pyIsSpace c = false) →
    pyWords (joinWords ws) = ws
  | [], _ => by simp [joinWords, pyWords, splitWS]
  | [w], h => by
    have hw := h w (by simp)
    rw [joinWords, pyWords, splitWS_all_nonspace w hw.2]
    simp [hw.1]
  | w :: w' :: ws, h => by
    have hw := h w (by simp)
    have hrec := pyWords_joinWords (w' :: ws)
      (fun x hx => h x (List.mem_cons_of_mem _ hx))
    obtain ⟨h0, t0, hsplit⟩ :
        ∃ h0 t0, splitWS (joinWords (w' :: ws)) = h0 :: t0 := by
      cases hs : splitWS (joinWords (w' :: ws)) with
      | nil => exact absurd hs (splitWS_ne_nil _)
      | cons a b => exact ⟨a, b, rfl⟩
    have hsp : splitWS (' ' :: joinWords (w' :: ws)) = [] :: h0 :: t0 := by
      rw [splitWS_space (by decide), hsplit]
    have happ := splitWS_append w hw.2 _ _ _ hsp
    have hjw : joinWords (w :: w' :: ws) = w ++ ' ' :: joinWords (w' :: ws) := by
      rfl
    have htail : (h0 :: t0).filter (fun x => !x.isEmpty) = w' :: ws := by
      rw [← hsplit]
      exact hrec
    rw [pyWords, hjw, happ, List.append_nil, List.filter_cons,
      if_pos (show (!w.isEmpty) = true by
        cases w with
        | nil => exact absurd rfl hw.1
        | cons x xs => rfl),
      htail]

theorem mem_joinWords : ∀ (ws : List (List Char)) (c : Char),
    c ∈ joinWords ws → c = ' ' ∨ ∃ w ∈ ws, c ∈ w
  | [], c, h => by simp [joinWords] at h
  | [w], c, h => Or.inr ⟨w, by simp, h⟩
  | w :: w' :: ws, c, h => by
    have hjw : joinWords (w :: w' :: ws) = w ++ ' ' :: joinWords (w' :: ws) := by
      rfl
    rw [hjw] at h
    rcases List.mem_append.mp h with h | h
    · exact Or.inr ⟨w, by simp, h⟩
    · rcases List.mem_cons.mp h with h | h
      · exact Or.inl h
      · rcases mem_joinWords (w' :: ws) c h with h | ⟨v, hv, hcv⟩
        · exact Or.inl h
        · exact Or.inr ⟨v, List.mem_cons_of_mem _ hv, hcv⟩

theorem normalizeChars_idem (l : List Char) :
    normalizeChars (normalizeChars l) = normalizeChars l := by
  have hW : ∀ w ∈ pyWords (l.filter (fun c => c ≠ softHyphen)),
      w ≠ [] ∧ ∀ c ∈ w, pyIsSpace c = false := by
    intro w hw
    have hmem := List.mem_filter.mp hw
    refine ⟨by simpa using hmem.2, ?_⟩
    intro c hc
    exact (mem_splitWS _ w hmem.1 c hc).2
  have hfil : (normalizeChars l).filter (fun c => c ≠ softHyphen)
      = normalizeChars l := by
    rw [List.filter_eq_self]
    intro c hc
    rw [normalizeChars] at hc
    rcases mem_joinWords _ c hc with h | ⟨w, hw, hcw⟩
    · subst h
      decide
    · have hmem := List.mem_filter.mp hw
      have := (mem_splitWS _ w hmem.1 c hcw).1
      exact (List.mem_filter.mp this).2
  calc normalizeChars (normalizeChars l)
      = joinWords (pyWords (normalizeChars l)) := by
        rw [normalizeChars, hfil]
    _ = normalizeChars l := by
        rw [normalizeChars]
        rw [pyWords_joinWords _ hW]

/-! ### Claim theorems (part 1) -/

/-- C1: chunk identity is a pure function of the normalized chunk text.
For every hash functions, every filename/file-hash pair and every chunk
list, the ids produced by `_prepare_chunks` are exactly
`UUID5(namespace, normalized_text)` and the content hashes exactly
`SHA-256(normalized_text)`, per chunk; consequently the ids and hashes do
not depend on the filename or file hash of the ingestion run, so ingesting
the same file twice produces identical id and hash sequences. -/
theorem chunk_identity_pure (sha u5 : String → String)
    (fn1 fh1 fn2 fh2 : String) (chunks : List Doc) :
    (prepareChunks sha u5 fn1 fh1 chunks).2
      = chunks.map (fun c => u5 (normalizeString c.page_content))
    ∧ (prepareChunks sha u5 fn1 fh1 chunks).1.map (fun d => d.chunk_hash)
      = chunks.map (fun c => some (sha (normalizeString c.page_content)))
    ∧ (prepareChunks sha u5 fn1 fh1 chunks).2
      = (prepareChunks sha u5 fn2 fh2 chunks).2
    ∧ (prepareChunks sha u5 fn1 fh1 chunks).1.map (fun d => d.chunk_hash)
      = (prepareChunks sha u5 fn2 fh2 chunks).1.map (fun d => d.chunk_hash) := by
  have h1 := prepareChunksAux_spec sha u5 fn1 fh1 0 chunks
  have h2 := prepareChunksAux_spec sha u5 fn2 fh2 0 chunks
  refine ⟨h1.1, h1.2.1, ?_, ?_⟩
  · rw [prepareChunks, prepareChunks, h1.1, h2.1]
  · rw [prepareChunks, prepareChunks, h1.2.1, h2.2.1]

/-- C4: `rerank` returns a list of the same length as its input; an empty
candidate list yields an empty result; and when the model or the tokenizer
is not loaded the input list is returned unchanged. -/
theorem rerank_degradation (st : RerankerState)
    (score : String → String → Int) (q : String) (docs : List Doc) :
    (rerankSync st score q docs).length = docs.length
    ∧ rerankSync st score q [] = []
    ∧ (st.model = false ∨ st.tokenizer = false →
        rerankSync st score q docs = docs) := by
  refine ⟨?_, ?_, ?_⟩
  · rw [rerankSync]
    split
    · rfl
    · split
      · next hne hemp => simp [List.isEmpty_iff.mp hemp]
      · simp [List.length_insertionSort]
  · rw [rerankSync]
    split
    · rfl
    · simp
  · intro h
    rcases h with h | h <;> simp [rerankSync, h]

/-- C4 witness: with the tokenizer missing, a three-candidate list is
passed through unchanged. -/
theorem rerank_degradation_witness :
    rerankSync ⟨true, false⟩ (fun _ _ => 0) "q"
        [{ page_content := "a" }, { page_content := "b" }, { page_content := "c" }]
      = [{ page_content := "a" }, { page_content := "b" }, { page_content := "c" }] :=
  (rerank_degradation ⟨true, false⟩ (fun _ _ => 0) "q"
    [{ page_content := "a" }, { page_content := "b" }, { page_content := "c" }]).2.2
    (Or.inr rfl)

/-- C6 (code bug): when the model fails to materialize during `load()` on a
freshly constructed `Reranker` (`self.model = None`), the statement
`self.model.to(self.device)` — which stands outside the `try` block —
raises `AttributeError` past the caller, instead of leaving the component
in the degraded pass-through state the specification describes. -/
theorem load_failure_raises :
    load false true initState
        = Except.error "AttributeError: NoneType object has no attribute to"
    ∧ load false false initState
        = Except.error "AttributeError: NoneType object has no attribute to" :=
  ⟨rfl, rfl⟩

/-- C7: the final output of `HybridRetriever.aretrieve` is exactly the
first `top_k` elements of the reranked list, and its length is
`min(top_k, number of ranked candidates)`. -/
theorem retrieve_topk_truncation (st : RerankerState)
    (score : String → String → Int) (preK topK : Nat) (q : String)
    (vecDocs lexDocs : List Doc) :
    aretrieve st score preK topK q vecDocs lexDocs
      = (rerankSync st score q ((fuse vecDocs lexDocs).take preK)).take topK
    ∧ (aretrieve st score preK topK q vecDocs lexDocs).length
      = min topK (rerankSync st score q ((fuse vecDocs lexDocs).take preK)).length := by
  refine ⟨rfl, ?_⟩
  rw [aretrieve]
  exact List.length_take _ _

/-- C8: blocks marked atomic by the parser bypass the splitter entirely:
the splitter receives exactly the non-atomic blocks, the atomic blocks
appear in the chunk list verbatim (one chunk each, never subdivided or
merged), and `_prepare_chunks` preserves their number. -/
theorem tables_never_split (split : List Doc → List Doc) (docs : List Doc)
    (hsplit : ∀ d ∈ split (docs.filter (fun d => !d.is_atomic)),
        d.is_atomic = false) :
    ingestChunks split docs
      = split (docs.filter (fun d => !d.is_atomic))
          ++ docs.filter (fun d => d.is_atomic)
    ∧ (ingestChunks split docs).filter (fun d => d.is_atomic)
      = docs.filter (fun d => d.is_atomic)
    ∧ ∀ sha u5 fn fh,
        ((prepareChunks sha u5 fn fh (ingestChunks split docs)).1.filter
            (fun d => d.is_atomic)).length
          = (docs.filter (fun d => d.is_atomic)).length := by
  have hfil : (ingestChunks split docs).filter (fun d => d.is_atomic)
      = docs.filter (fun d => d.is_atomic) := by
    rw [ingestChunks, List.filter_append]
    have h1 : (split (docs.filter (fun d => !d.is_atomic))).filter
        (fun d => d.is_atomic) = [] := by
      rw [List.filter_eq_nil_iff]
      intro d hd
      simp [hsplit d hd]
    have h2 : (docs.filter (fun d => d.is_atomic)).filter
        (fun d => d.is_atomic) = docs.filter (fun d => d.is_atomic) := by
      rw [List.filter_filter]
      simp
    rw [h1, h2, List.nil_append]
  refine ⟨rfl, hfil, ?_⟩
  intro sha u5 fn fh
  have hmap := (prepareChunksAux_spec sha u5 fn fh 0 (ingestChunks split docs)).2.2
  have := countP_eq_of_map_eq (fun d => d.is_atomic) (fun d => d.is_atomic)
    (prepareChunks sha u5 fn fh (ingestChunks split docs)).1
    (ingestChunks split docs) hmap
  rw [this, hfil]

/-- C9: text normalization is idempotent — normalizing an already
normalized string changes nothing — so chunk ids and content hashes
computed from already-normalized text are stable under repeated
normalization. -/
theorem normalize_idempotent (t : String) (sha u5 : String → String) :
    normalizeString (normalizeString t) = normalizeString t
    ∧ sha (normalizeString (normalizeString t)) = sha (normalizeString t)
    ∧ u5 (normalizeString (normalizeString t)) = u5 (normalizeString t) := by
  have h : normalizeString (normalizeString t) = normalizeString t :=
    congrArg String.mk (normalizeChars_idem t.data)
  exact ⟨h, congrArg sha h, congrArg u5 h⟩

/-- C10: `DocxParser._extract_table` always returns an index strictly
greater than the index it was given (it consumes at least the table's
first line), so the measure `lines.length - idx` of the line-scanning loop
of `DocxParser.parse` strictly decreases on the table branch; every other
branch advances the index by one.  The loop `parseLoop` is accepted by
Lean as a total function on exactly this measure, so `parse` terminates on
every finite input. -/
theorem parse_index_advances :
    (∀ (lines : List String) (i : Nat), i < (extractTable lines i).2)
    ∧ (∀ (lines : List String) (i : Nat), i < lines.length →
        lines.length - (extractTable lines i).2 < lines.length - i) := by
  refine ⟨extractTable_lt, ?_⟩
  intro lines i hi
  have := extractTable_lt lines i
  omega

/-- C10 witness: on a concrete one-line input the index returned by
`_extract_table` strictly decreases the loop measure. -/
theorem parse_index_advances_witness :
    ["| a |"].length - (extractTable ["| a |"] 0).2 < ["| a |"].length - 0 :=
  parse_index_advances.2 ["| a |"] 0 (by decide)

/-- C8 witness: a two-block document (one paragraph, one atomic table) with
the identity splitter keeps the table as a single verbatim chunk. -/
theorem tables_never_split_witness :
    ingestChunks (fun l => l)
        [{ page_content := "p" }, { page_content := "| a |", is_atomic := true }]
      = [{ page_content := "p" }, { page_content := "| a |", is_atomic := true }] := by
  have h := tables_never_split (fun l => l)
    [{ page_content := "p" }, { page_content := "| a |", is_atomic := true }]
    (by decide)
  rw [h.1]
  decide

/-! ### Lemmas about the fusion dict -/

theorem dictUpsert_not_mem {m : List (String × Doc)} {k : String}
    (hk : k ∉ keysOf m) (v : Doc) : dictUpsert m k v = m ++ [(k, v)] := by
  have hcond : ¬ ((m.any fun p => decide (p.1 = k)) = true) := by
    intro h
    rcases List.any_eq_true.mp h with ⟨p, hp, hpk⟩
    have hp1 : p.1 = k := of_decide_eq_true hpk
    exact hk (hp1 ▸ List.mem_map_of_mem Prod.fst hp)
  rw [dictUpsert, if_neg hcond]

theorem dictUpsert_mem {m : List (String × Doc)} {k : String}
    (hk : k ∈ keysOf m) (v : Doc) :
    dictUpsert m k v = m.map (fun p => if p.1 = k then (k, v) else p) := by
  have hcond : (m.any fun p => decide (p.1 = k)) = true := by
    rcases List.mem_map.mp hk with ⟨p, hp, hpk⟩
    exact List.any_eq_true.mpr ⟨p, hp, decide_eq_true hpk⟩
  rw [dictUpsert, if_pos hcond]

theorem keysOf_dictUpsert (m : List (String × Doc)) (k : String) (v : Doc) :
    keysOf (dictUpsert m k v)
      = if k ∈ keysOf m then keysOf m else keysOf m ++ [k] := by
  by_cases hk : k ∈ keysOf m
  · rw [if_pos hk, dictUpsert_mem hk, keysOf, List.map_map]
    exact List.map_congr_left (fun p _ => by
      by_cases hp : p.1 = k
      · simp [hp]
      · simp [hp])
  · rw [if_neg hk, dictUpsert_not_mem hk, keysOf, List.map_append]
    rfl

theorem find?_map_upsert_ne (m : List (String × Doc)) (k k' : String)
    (v : Doc) (hne : k' ≠ k) :
    findKey k' (m.map (fun p => if p.1 = k then (k, v) else p))
      = findKey k' m := by
  induction m with
  | nil => rfl
  | cons q m ih =>
    simp only [findKey] at ih ⊢
    rw [List.map_cons]
    by_cases hq : q.1 = k
    · rw [if_pos hq,
        List.find?_cons_of_neg _ (by simp [hne.symm]),
        List.find?_cons_of_neg _ (by simp [hq, hne.symm])]
      exact ih
    · rw [if_neg hq]
      by_cases hq' : q.1 = k'
      · rw [List.find?_cons_of_pos _ (by simp [hq']),
          List.find?_cons_of_pos _ (by simp [hq'])]
      · rw [List.find?_cons_of_neg _ (by simp [hq']),
          List.find?_cons_of_neg _ (by simp [hq'])]
        exact ih

theorem find?_map_upsert_self (m : List (String × Doc)) (k : String)
    (v : Doc) (hk : k ∈ keysOf m) :
    findKey k (m.map (fun p => if p.1 = k then (k, v) else p)) = some v := by
  induction m with
  | nil => simp [keysOf] at hk
  | cons q m ih =>
    simp only [findKey] at ih ⊢
    rw [List.map_cons]
    by_cases hq : q.1 = k
    · rw [if_pos hq, List.find?_cons_of_pos _ (by simp)]
      rfl
    · rw [if_neg hq, List.find?_cons_of_neg _ (by simp [hq])]
      refine ih ?_
      rcases List.mem_cons.mp hk with h | h
      · exact absurd h.symm hq
      · exact h

theorem findKey_append_single (m : List (String × Doc)) (k k' : String)
    (v : Doc) :
    findKey k' (m ++ [(k, v)])
      = if k' = k then (findKey k' m).orElse (fun _ => some v)
        else findKey k' m := by
  rw [findKey, List.find?_append, findKey]
  by_cases hk : k' = k
  · rw [if_pos hk]
    cases h : m.find? (fun p => decide (p.1 = k')) with
    | none => simp [List.find?, hk.symm, Option.or]
    | some p => simp [Option.or]
  · rw [if_neg hk]
    cases h : m.find? (fun p => decide (p.1 = k')) with
    | none => simp [List.find?, Ne.symm hk, Option.or]
    | some p => simp [Option.or]

theorem findKey_dictUpsert_self (m : List (String × Doc)) (k : String)
    (v : Doc) : findKey k (dictUpsert m k v) = some v := by
  by_cases hk : k ∈ keysOf m
  · rw [dictUpsert_mem hk]
    exact find?_map_upsert_self m k v hk
  · rw [dictUpsert_not_mem hk, findKey_append_single, if_pos rfl]
    have hnone : findKey k m = none := by
      rw [findKey, List.find?_eq_none.mpr]
      · rfl
      · intro p hp hpk
        exact hk (of_decide_eq_true hpk ▸ List.mem_map_of_mem Prod.fst hp)
    rw [hnone]
    rfl

theorem findKey_dictUpsert_ne (m : List (String × Doc)) {k k' : String}
    (v : Doc) (hne : k' ≠ k) :
    findKey k' (dictUpsert m k v) = findKey k' m := by
  by_cases hk : k ∈ keysOf m
  · rw [dictUpsert_mem hk]
    exact find?_map_upsert_ne m k k' v hne
  · rw [dictUpsert_not_mem hk, findKey_append_single, if_neg hne]

theorem findKey_fuseFold (ds : List Doc) :
    ∀ (m : List (String × Doc)) (k : String),
      findKey k (fuseFold m ds)
        = match findLastKey k ds with
          | some e => some e
          | none => findKey k m := by
  induction ds with
  | nil => intro m k; rfl
  | cons d ds ih =>
    intro m k
    have hstep : fuseFold m (d :: ds)
        = fuseFold (dictUpsert m (fuseKey d) d) ds := rfl
    rw [hstep, ih]
    cases hds : findLastKey k ds with
    | some e => simp [findLastKey, hds]
    | none =>
      by_cases hk : fuseKey d = k
      · subst hk
        simp [findLastKey, hds, findKey_dictUpsert_self]
      · simp [findLastKey, hds, hk, findKey_dictUpsert_ne m d (fun h => hk h.symm)]

theorem keysOf_fuseFold_prefix (ds : List Doc) :
    ∀ m : List (String × Doc),
      ∃ rest, keysOf (fuseFold m ds) = keysOf m ++ rest := by
  induction ds with
  | nil => intro m; exact ⟨[], (List.append_nil _).symm⟩
  | cons d ds ih =>
    intro m
    obtain ⟨r1, hr1⟩ := ih (dictUpsert m (fuseKey d) d)
    have hstep : fuseFold m (d :: ds)
        = fuseFold (dictUpsert m (fuseKey d) d) ds := rfl
    rw [hstep, hr1, keysOf_dictUpsert]
    by_cases hk : fuseKey d ∈ keysOf m
    · exact ⟨r1, by rw [if_pos hk]⟩
    · exact ⟨[fuseKey d] ++ r1, by rw [if_neg hk, List.append_assoc]⟩

theorem keysOf_fuseFold_nodup (ds : List Doc) :
    ∀ m : List (String × Doc),
      (keysOf m).Nodup → (keysOf (fuseFold m ds)).Nodup := by
  induction ds with
  | nil => intro m h; exact h
  | cons d ds ih =>
    intro m h
    have hstep : fuseFold m (d :: ds)
        = fuseFold (dictUpsert m (fuseKey d) d) ds := rfl
    rw [hstep]
    refine ih _ ?_
    rw [keysOf_dictUpsert]
    by_cases hk : fuseKey d ∈ keysOf m
    · rw [if_pos hk]; exact h
    · rw [if_neg hk]
      rw [List.nodup_append]
      exact ⟨h, List.nodup_singleton _, by simpa [List.disjoint_singleton] using hk⟩

theorem mem_keysOf_fuseFold (ds : List Doc) :
    ∀ (m : List (String × Doc)) (k : String),
      k ∈ keysOf (fuseFold m ds) ↔ k ∈ keysOf m ∨ k ∈ ds.map fuseKey := by
  induction ds with
  | nil => intro m k; simp [fuseFold]
  | cons d ds ih =>
    intro m k
    have hstep : fuseFold m (d :: ds)
        = fuseFold (dictUpsert m (fuseKey d) d) ds := rfl
    rw [hstep, ih, keysOf_dictUpsert]
    by_cases hk : fuseKey d ∈ keysOf m
    · rw [if_pos hk]
      simp only [List.map_cons, List.mem_cons]
      constructor
      · rintro (h | h)
        · exact Or.inl h
        · exact Or.inr (Or.inr h)
      · rintro (h | h | h)
        · exact Or.inl h
        · exact Or.inl (h ▸ hk)
        · exact Or.inr h
    · rw [if_neg hk]
      simp only [List.map_cons, List.mem_cons, List.mem_append,
        List.mem_singleton]
      tauto

theorem fuseFold_fresh (ds : List Doc) :
    ∀ m : List (String × Doc),
      (ds.map fuseKey).Nodup →
      (∀ d ∈ ds, fuseKey d ∉ keysOf m) →
      fuseFold m ds = m ++ ds.map (fun d => (fuseKey d, d)) := by
  induction ds with
  | nil => intro m _ _; exact (List.append_nil _).symm
  | cons d ds ih =>
    intro m hnd hfresh
    rw [List.map_cons, List.nodup_cons] at hnd
    have hstep : fuseFold m (d :: ds)
        = fuseFold (dictUpsert m (fuseKey d) d) ds := rfl
    have hd : fuseKey d ∉ keysOf m := hfresh d (List.mem_cons_self _ _)
    rw [hstep, dictUpsert_not_mem hd]
    rw [ih (m ++ [(fuseKey d, d)]) hnd.2 ?_]
    · simp
    · intro e he
      have h1 : fuseKey e ∉ keysOf m := hfresh e (List.mem_cons_of_mem _ he)
      have h2 : fuseKey e ≠ fuseKey d := by
        intro h
        exact hnd.1 (h ▸ List.mem_map_of_mem fuseKey he)
      rw [keysOf, List.map_append]
      simp only [List.map_cons, List.map_nil, List.mem_append,
        List.mem_singleton]
      rintro (hmem | hmem)
      · exact h1 hmem
      · exact h2 hmem

theorem nodup_key_entry :
    ∀ (m : List (String × Doc)), (keysOf m).Nodup →
      ∀ (i : Nat) (p : String × Doc), m[i]? = some p →
        findKey p.1 m = some p.2 := by
  intro m
  induction m with
  | nil => intro _ i p h; simp at h
  | cons q m ih =>
    intro hnd i p h
    cases i with
    | zero =>
      simp only [List.getElem?_cons_zero, Option.some.injEq] at h
      subst h
      rw [findKey, List.find?_cons_of_pos _ (by simp)]
      rfl
    | succ i =>
      simp only [List.getElem?_cons_succ] at h
      have hpm : p ∈ m := List.getElem?_mem h
      have hq : q.1 ≠ p.1 := by
        intro hqp
        have := (List.nodup_cons.mp hnd).1
        exact this (hqp ▸ List.mem_map_of_mem Prod.fst hpm)
      rw [findKey, List.find?_cons_of_neg _ (by simp [hq])]
      exact ih (List.nodup_cons.mp hnd).2 i p h

theorem findLastKey_eq_none {k : String} :
    ∀ ds : List Doc, k ∉ ds.map fuseKey → findLastKey k ds = none := by
  intro ds
  induction ds with
  | nil => intro _; rfl
  | cons d ds ih =>
    intro h
    have h1 : fuseKey d ≠ k := by
      intro he
      exact h (by simp [← he])
    have h2 : k ∉ ds.map fuseKey := by
      intro he
      exact h (by simp [he])
    rw [findLastKey, ih h2]
    simp [h1]

theorem findLastKey_nodup_get :
    ∀ (L : List Doc), (L.map fuseKey).Nodup →
      ∀ (j : Nat) (hj : j < L.length),
        findLastKey (fuseKey L[j]) L = some L[j] := by
  intro L
  induction L with
  | nil => intro _ j hj; simp at hj
  | cons d L ih =>
    intro hnd j hj
    rw [List.map_cons, List.nodup_cons] at hnd
    cases j with
    | zero =>
      simp only [List.getElem_cons_zero]
      have hnone : findLastKey (fuseKey d) L = none :=
        findLastKey_eq_none L hnd.1
      rw [findLastKey, hnone]
      simp
    | succ j =>
      simp only [List.getElem_cons_succ]
      have hj' : j < L.length := by simpa using hj
      have := ih hnd.2 j hj'
      rw [findLastKey, this]

theorem findKey_mapPair :
    ∀ (V : List Doc), (V.map fuseKey).Nodup →
      ∀ (i : Nat) (hi : i < V.length),
        findKey (fuseKey V[i]) (V.map (fun d => (fuseKey d, d)))
          = some V[i] := by
  intro V
  induction V with
  | nil => intro _ i hi; simp at hi
  | cons d V ih =>
    intro hnd i hi
    rw [List.map_cons, List.nodup_cons] at hnd
    cases i with
    | zero =>
      simp only [List.getElem_cons_zero, List.map_cons]
      rw [findKey, List.find?_cons_of_pos _ (by simp)]
      rfl
    | succ i =>
      simp only [List.getElem_cons_succ, List.map_cons]
      have hi' : i < V.length := by simpa using hi
      have hne : fuseKey d ≠ fuseKey V[i] := by
        intro h
        exact hnd.1 (h ▸ List.mem_map_of_mem fuseKey (V.getElem_mem hi'))
      rw [findKey, List.find?_cons_of_neg _ (by simp [hne])]
      have := ih hnd.2 i hi'
      rw [findKey] at this
      exact this

theorem fuseFold_entry_key (ds : List Doc) :
    ∀ m : List (String × Doc), (∀ p ∈ m, fuseKey p.2 = p.1) →
      ∀ p ∈ fuseFold m ds, fuseKey p.2 = p.1 := by
  induction ds with
  | nil => intro m h; exact h
  | cons d ds ih =>
    intro m h
    have hstep : fuseFold m (d :: ds)
        = fuseFold (dictUpsert m (fuseKey d) d) ds := rfl
    rw [hstep]
    refine ih _ ?_
    intro p hp
    rw [dictUpsert] at hp
    split at hp
    · rcases List.mem_map.mp hp with ⟨q, hq, hqe⟩
      by_cases hqk : q.1 = fuseKey d
      · rw [if_pos hqk] at hqe
        rw [← hqe]
      · rw [if_neg hqk] at hqe
        exact hqe ▸ h q hq
    · rcases List.mem_append.mp hp with hm | hm
      · exact h p hm
      · rw [List.mem_singleton.mp hm]

theorem filter_length_eq_one_of_nodup {l : List String} (h : l.Nodup)
    {k : String} (hk : k ∈ l) :
    (l.filter (fun s => decide (s = k))).length = 1 := by
  induction l with
  | nil => simp at hk
  | cons a l ih =>
    rw [List.nodup_cons] at h
    rw [List.filter_cons]
    by_cases ha : a = k
    · rw [if_pos (by simp [ha])]
      have hnil : l.filter (fun s => decide (s = k)) = [] := by
        rw [List.filter_eq_nil_iff]
        intro s hs hdec
        have hsk : s = k := of_decide_eq_true hdec
        exact h.1 (by rw [ha, ← hsk]; exact hs)
      simp [hnil]
    · rw [if_neg (by simp [ha])]
      refine ih h.2 ?_
      rcases List.mem_cons.mp hk with h' | h'
      · exact absurd h'.symm ha
      · exact h'

theorem fuse_key_count (V L : List Doc) (k : String)
    (hk : k ∈ (V ++ L).map fuseKey) :
    ((fuse V L).filter (fun d => decide (fuseKey d = k))).length = 1 := by
  have hQ : ∀ p ∈ fuseFold [] (V ++ L), fuseKey p.2 = p.1 :=
    fuseFold_entry_key _ [] (by simp)
  have hnd : (keysOf (fuseFold [] (V ++ L))).Nodup :=
    keysOf_fuseFold_nodup _ [] (by simp [keysOf])
  have h1 : (fuse V L).filter (fun d => decide (fuseKey d = k))
      = ((fuseFold [] (V ++ L)).filter
          (fun p => decide (fuseKey p.2 = k))).map Prod.snd :=
    List.filter_map Prod.snd (fuseFold [] (V ++ L))
  have h2 : (fuseFold [] (V ++ L)).filter (fun p => decide (fuseKey p.2 = k))
      = (fuseFold [] (V ++ L)).filter (fun p => decide (p.1 = k)) := by
    refine List.filter_congr ?_
    intro p hp
    rw [hQ p hp]
  have h3 : ((fuseFold [] (V ++ L)).filter
        (fun p => decide (p.1 = k))).length
      = ((keysOf (fuseFold [] (V ++ L))).filter
          (fun s => decide (s = k))).length := by
    refine countP_eq_of_map_eq _ _ _ _ ?_
    rw [keysOf, List.map_map]
    rfl
  have hmem : k ∈ keysOf (fuseFold [] (V ++ L)) := by
    rw [mem_keysOf_fuseFold]
    exact Or.inr hk
  rw [h1, List.length_map, h2, h3]
  exact filter_length_eq_one_of_nodup hnd hmem

theorem fuse_length (V L : List Doc) :
    (fuse V L).length = ((V ++ L).map fuseKey).toFinset.card := by
  have hnd : (keysOf (fuseFold [] (V ++ L))).Nodup :=
    keysOf_fuseFold_nodup _ [] (by simp [keysOf])
  have hset : (keysOf (fuseFold [] (V ++ L))).toFinset
      = ((V ++ L).map fuseKey).toFinset := by
    ext a
    simp only [List.mem_toFinset]
    rw [mem_keysOf_fuseFold]
    simp [keysOf]
  calc (fuse V L).length
      = (keysOf (fuseFold [] (V ++ L))).length := by
        rw [fuse, List.length_map, keysOf, List.length_map]
    _ = (keysOf (fuseFold [] (V ++ L))).toFinset.card :=
        (List.toFinset_card_of_nodup hnd).symm
    _ = ((V ++ L).map fuseKey).toFinset.card := by rw [hset]

/-- C2: the fused candidate list (before `pre_rerank_k` truncation)
contains exactly one entry per distinct identity key: its length is the
number of distinct fusion keys of `V ++ L`, and every key occurring in
`V ++ L` — in particular every key shared by `V` and `L` — appears in the
fused list exactly once. -/
theorem fuse_dedup_correct (V L : List Doc) :
    (fuse V L).length = ((V ++ L).map fuseKey).toFinset.card
    ∧ ∀ k ∈ (V ++ L).map fuseKey,
        ((fuse V L).filter (fun d => decide (fuseKey d = k))).length = 1 :=
  ⟨fuse_length V L, fun k hk => fuse_key_count V L k hk⟩

/-- C2 witness: two vector results and two lexical results sharing one key
fuse into one entry for the shared key. -/
theorem fuse_dedup_correct_witness :
    ((fuse [wA, wB] [wB2, wD]).filter
        (fun d => decide (fuseKey d = "hb"))).length = 1 :=
  (fuse_dedup_correct [wA, wB] [wB2, wD]).2 "hb" (by decide)

theorem fuse_eq_fold_pairs (V L : List Doc)
    (hV : (V.map fuseKey).Nodup) :
    fuse V L
      = (fuseFold (V.map (fun d => (fuseKey d, d))) L).map Prod.snd := by
  have h0 : fuseFold [] V = V.map (fun d => (fuseKey d, d)) := by
    have := fuseFold_fresh V [] hV (by simp [keysOf])
    simpa using this
  rw [fuse]
  have hfold : fuseFold [] (V ++ L) = fuseFold (fuseFold [] V) L := by
    rw [fuseFold, fuseFold, fuseFold, List.foldl_append]
  rw [hfold, h0]

theorem keysOf_mapPair (V : List Doc) :
    keysOf (V.map (fun d => (fuseKey d, d))) = V.map fuseKey := by
  rw [keysOf, List.map_map]
  rfl

theorem fuse_entry_at (V L : List Doc)
    (hV : (V.map fuseKey).Nodup)
    (i : Nat) (hi : i < V.length) :
    ∃ p : String × Doc,
      (fuseFold (V.map (fun d => (fuseKey d, d))) L)[i]? = some p
      ∧ p.1 = fuseKey V[i]
      ∧ findKey p.1 (fuseFold (V.map (fun d => (fuseKey d, d))) L)
          = some p.2 := by
  set m0 := V.map (fun d => (fuseKey d, d)) with hm0
  set M := fuseFold m0 L with hM
  obtain ⟨rest, hrest⟩ := keysOf_fuseFold_prefix L m0
  have hm0len : (keysOf m0).length = V.length := by
    rw [keysOf_mapPair, List.length_map]
  have hMlen : V.length ≤ M.length := by
    have : (keysOf M).length = (keysOf m0).length + rest.length := by
      rw [hrest, List.length_append]
    rw [keysOf, List.length_map] at this
    omega
  have hiM : i < M.length := by omega
  refine ⟨M[i], List.getElem?_eq_getElem hiM, ?_, ?_⟩
  · have hkeys : (keysOf M)[i]? = some (fuseKey V[i]) := by
      rw [hrest, List.getElem?_append,
        if_pos (show i < (keysOf m0).length by omega), keysOf_mapPair,
        List.getElem?_map, List.getElem?_eq_getElem hi]
      rfl
    have : (keysOf M)[i]? = some M[i].1 := by
      rw [keysOf, List.getElem?_map, List.getElem?_eq_getElem hiM]
      rfl
    rw [this] at hkeys
    exact Option.some.inj hkeys
  · have hnd : (keysOf M).Nodup := by
      refine keysOf_fuseFold_nodup L m0 ?_
      rw [keysOf_mapPair]
      exact hV
    exact nodup_key_entry M hnd i M[i] (List.getElem?_eq_getElem hiM)

/-- C3: for an identity key found by both searches, the fused record is the
lexical-side record, placed at the key's position in the vector list;
vector-found chunks whose key is not found lexically keep their
vector-derived slot with the vector record.  Keys are assumed pairwise
distinct within each result list (each search engine returns deduplicated
results). -/
theorem fuse_precedence (V L : List Doc)
    (hV : (V.map fuseKey).Nodup) (hL : (L.map fuseKey).Nodup) :
    (∀ (i : Nat) (hi : i < V.length) (j : Nat) (hj : j < L.length),
        fuseKey V[i] = fuseKey L[j] → (fuse V L)[i]? = some L[j])
    ∧ (∀ (i : Nat) (hi : i < V.length),
        fuseKey V[i] ∉ L.map fuseKey → (fuse V L)[i]? = some V[i]) := by
  constructor
  · intro i hi j hj hshared
    obtain ⟨p, hp, hp1, hpfind⟩ := fuse_entry_at V L hV i hi
    have hlast : findLastKey p.1 L = some L[j] := by
      rw [hp1, hshared]
      exact findLastKey_nodup_get L hL j hj
    have := findKey_fuseFold L (V.map (fun d => (fuseKey d, d))) p.1
    rw [hlast] at this
    rw [this] at hpfind
    have hp2 : p.2 = L[j] := (Option.some.inj hpfind).symm
    rw [fuse_eq_fold_pairs V L hV, List.getElem?_map, hp]
    simp [hp2]
  · intro i hi hnotin
    obtain ⟨p, hp, hp1, hpfind⟩ := fuse_entry_at V L hV i hi
    have hlast : findLastKey p.1 L = none := by
      rw [hp1]
      exact findLastKey_eq_none L hnotin
    have := findKey_fuseFold L (V.map (fun d => (fuseKey d, d))) p.1
    rw [hlast] at this
    rw [this] at hpfind
    rw [hp1] at hpfind
    rw [findKey_mapPair V hV i hi] at hpfind
    have hp2 : p.2 = V[i] := (Option.some.inj hpfind).symm
    rw [fuse_eq_fold_pairs V L hV, List.getElem?_map, hp]
    simp [hp2]

/-- C3 counterexample: quantified over arbitrary result lists the claim
fails.  In `V = [wX, wX2, wA]` the first two records share a key, and the
key of `V[2] = wA` is also the key of `L[0] = wA2`; the claim as stated
places the lexical record at position 2 of the fused output (the key's
position in `V`), but the fused output is `[wX2, wA2]`, so position 2
holds nothing — the shared key sits at position 1, its rank among the
distinct keys of `V`. -/
theorem fuse_position_counterexample :
    ([wX, wX2, wA] : List Doc)[2]? = some wA
    ∧ ([wA2] : List Doc)[0]? = some wA2
    ∧ fuseKey wA = fuseKey wA2
    ∧ (fuse [wX, wX2, wA] [wA2])[2]? = none
    ∧ (fuse [wX, wX2, wA] [wA2])[1]? = some wA2 := by
  decide

/-- C3 witness: scenario 3 of the specification — vector `[A, B, C]`,
lexical `[B', D]` with `B` and `B'` sharing a key: the fused list holds the
lexical record `B'` at `B`'s vector position 1, and `A` keeps slot 0. -/
theorem fuse_precedence_witness :
    (fuse [wA, wB, wC] [wB2, wD])[1]? = some wB2
    ∧ (fuse [wA, wB, wC] [wB2, wD])[0]? = some wA := by
  constructor
  · exact (fuse_precedence [wA, wB, wC] [wB2, wD] (by decide) (by decide)).1
      1 (by decide) 0 (by decide) (by decide)
  · exact (fuse_precedence [wA, wB, wC] [wB2, wD] (by decide) (by decide)).2
      0 (by decide) (by decide)

/-! ### Lemmas about the stable descending sort of the reranker -/

theorem filter_orderedInsert_eq (s : Int) (a : Doc × Int)
    (l : List (Doc × Int)) (ha : a.2 = s) :
    (l.orderedInsert scoreGE a).filter (fun p => decide (p.2 = s))
      = a :: l.filter (fun p => decide (p.2 = s)) := by
  induction l with
  | nil => simp [List.orderedInsert, ha]
  | cons b l ih =>
    rw [List.orderedInsert]
    by_cases h : scoreGE a b
    · rw [if_pos h, List.filter_cons, if_pos (by simp [ha])]
    · rw [if_neg h]
      have hb : ¬ (b.2 = s) := by
        rw [← ha]
        rw [scoreGE] at h
        omega
      rw [List.filter_cons, if_neg (by simp [hb]), ih,
        List.filter_cons, if_neg (by simp [hb])]

theorem filter_orderedInsert_ne (s : Int) (a : Doc × Int)
    (l : List (Doc × Int)) (ha : ¬ a.2 = s) :
    (l.orderedInsert scoreGE a).filter (fun p => decide (p.2 = s))
      = l.filter (fun p => decide (p.2 = s)) := by
  induction l with
  | nil => simp [List.orderedInsert, ha]
  | cons b l ih =>
    rw [List.orderedInsert]
    by_cases h : scoreGE a b
    · rw [if_pos h, List.filter_cons, if_neg (by simp [ha])]
    · rw [if_neg h, List.filter_cons, ih, List.filter_cons]

theorem filter_insertionSort_stable (s : Int) :
    ∀ l : List (Doc × Int),
      (l.insertionSort scoreGE).filter (fun p => decide (p.2 = s))
        = l.filter (fun p => decide (p.2 = s))
  | [] => rfl
  | a :: l => by
    rw [List.insertionSort]
    by_cases ha : a.2 = s
    · rw [filter_orderedInsert_eq s a _ ha, filter_insertionSort_stable s l,
        List.filter_cons, if_pos (by simp [ha])]
    · rw [filter_orderedInsert_ne s a _ ha, filter_insertionSort_stable s l,
        List.filter_cons, if_neg (by simp [ha])]

theorem insertionSort_snd_invariant (score : String → String → Int)
    (q : String) (docs : List Doc) :
    ∀ p ∈ (docs.map (fun d => (d, score q d.page_content))).insertionSort
        scoreGE, p.2 = score q p.1.page_content := by
  intro p hp
  have hmem : p ∈ docs.map (fun d => (d, score q d.page_content)) :=
    (List.mem_insertionSort scoreGE).mp hp
  rcases List.mem_map.mp hmem with ⟨d, _, hd⟩
  rw [← hd]

/-- C5: when the reranker is loaded, `rerank` returns a permutation of its
input (nothing dropped, nothing added), the scores along the output are
non-increasing, candidates with equal scores keep their relative input
order (stable sort, stated as preservation of every equal-score fiber),
and the output length equals the input length (no truncation inside
`rerank`). -/
theorem rerank_loaded_sorted (st : RerankerState)
    (score : String → String → Int) (q : String) (docs : List Doc)
    (h : st.model = true ∧ st.tokenizer = true) :
    (rerankSync st score q docs).Perm docs
    ∧ ((rerankSync st score q docs).map
        (fun d => score q d.page_content)).Sorted (· ≥ ·)
    ∧ (∀ s : Int,
        (rerankSync st score q docs).filter
            (fun d => decide (score q d.page_content = s))
          = docs.filter (fun d => decide (score q d.page_content = s)))
    ∧ (rerankSync st score q docs).length = docs.length := by
  obtain ⟨hm, ht⟩ := h
  have hunfold : rerankSync st score q docs
      = if docs.isEmpty then []
        else ((docs.map (fun d => (d, score q d.page_content))).insertionSort
            scoreGE).map Prod.fst := by
    rw [rerankSync, hm, ht]
    simp
  by_cases hemp : docs.isEmpty
  · rw [hunfold, if_pos hemp, List.isEmpty_iff.mp hemp]
    simp
  · rw [hunfold, if_neg hemp]
    set scored := docs.map (fun d => (d, score q d.page_content)) with hscored
    have hperm : (scored.insertionSort scoreGE).Perm scored :=
      List.perm_insertionSort scoreGE scored
    have hpermdocs :
        ((scored.insertionSort scoreGE).map Prod.fst).Perm docs := by
      have h1 := hperm.map Prod.fst
      have h2 : scored.map Prod.fst = docs := by
        rw [hscored, List.map_map]
        exact (List.map_congr_left (fun a _ => rfl)).trans (List.map_id docs)
      rw [h2] at h1
      exact h1
    have hinv := insertionSort_snd_invariant score q docs
    refine ⟨hpermdocs, ?_, ?_, hpermdocs.length_eq⟩
    · have hsorted : (scored.insertionSort scoreGE).Sorted scoreGE :=
        List.sorted_insertionSort scoreGE scored
      have hmapped : ((scored.insertionSort scoreGE).map Prod.fst).map
            (fun d => score q d.page_content)
          = (scored.insertionSort scoreGE).map Prod.snd := by
        rw [List.map_map]
        refine List.map_congr_left ?_
        intro p hp
        exact (hinv p hp).symm
      rw [hmapped]
      exact List.Pairwise.map Prod.snd (fun _ _ hab => hab) hsorted
    · intro s
      have hfil1 : ((scored.insertionSort scoreGE).map Prod.fst).filter
            (fun d => decide (score q d.page_content = s))
          = ((scored.insertionSort scoreGE).filter
              (fun p => decide (score q p.1.page_content = s))).map
                Prod.fst :=
        List.filter_map Prod.fst _
      have hfil2 : (scored.insertionSort scoreGE).filter
            (fun p => decide (score q p.1.page_content = s))
          = (scored.insertionSort scoreGE).filter
              (fun p => decide (p.2 = s)) := by
        refine List.filter_congr ?_
        intro p hp
        rw [hinv p hp]
      have hfil3 := filter_insertionSort_stable s scored
      have hfil4 : scored.filter (fun p => decide (p.2 = s))
          = (docs.filter
              (fun d => decide (score q d.page_content = s))).map
                (fun d => (d, score q d.page_content)) := by
        rw [hscored]
        rw [List.filter_map]
        rfl
      rw [hfil1, hfil2, hfil3, hfil4, List.map_map]
      refine (List.map_congr_left ?_).trans (List.map_id _)
      intro a _
      rfl

/-- C5 witness: with the model loaded, two candidates scoring 1 and 2 are
returned as a permutation with non-increasing scores, the score-1 fiber is
preserved, and no candidate is dropped. -/
theorem rerank_loaded_sorted_witness :
    (rerankSync ⟨true, true⟩ wScore "q" [wA, wB]).Perm [wA, wB]
    ∧ ((rerankSync ⟨true, true⟩ wScore "q" [wA, wB]).map
        (fun d => wScore "q" d.page_content)).Sorted (· ≥ ·)
    ∧ (rerankSync ⟨true, true⟩ wScore "q" [wA, wB]).filter
          (fun d => decide (wScore "q" d.page_content = 1))
        = [wA, wB].filter (fun d => decide (wScore "q" d.page_content = 1))
    ∧ (rerankSync ⟨true, true⟩ wScore "q" [wA, wB]).length = 2 := by
  have h := rerank_loaded_sorted ⟨true, true⟩ wScore "q" [wA, wB] ⟨rfl, rfl⟩
  exact ⟨h.1, h.2.1, h.2.2.1 1, h.2.2.2⟩

end Sapsan
